import Mathlib

/-!
Verification of the hybrid lexical-semantic retrieval engine of the
Legal-Content-Generator repository.

The Python sources are shallowly embedded:

* `BM25Preprocessor.py` — `load_and_prepare` builds the lexical statistics
  (postings, document lengths, average document length, idf) and
  `score_subset` reranks a candidate subset with the BM25 formula.
  Documents are represented here by their normalized token lists (the
  output of `normalize(...).split()`; Unicode NFKC normalization itself is
  deterministic preprocessing and is not modelled).  Python `dict`s keep
  insertion order, so postings maps and the score accumulator are
  association lists carrying that order.  Term-frequency values stored by
  `math.log` are real numbers; `score_subset` is therefore parametric in
  the idf assignment (a `String → ℚ` map), while the log formula itself is
  treated separately over `ℝ`.
* `LegalKnowledgeIndexer.py` — the corpus flatteners (`flatten_content`,
  `process_list`), the `embed` validation check (`np.allclose` with
  `atol=1e-6` and numpy's default `rtol=1e-5`), and the id lookup
  `self.ids[idx]` performed by `query` on the FAISS search labels
  (Python list indexing, negative indices included).
* `hybridRetrieval.py` — the post-processing of `run`: fetch each hit's
  raw chunk, drop leading "Section:" lines, rejoin and strip.

All arithmetic the code performs with Python floats is modelled exactly
over `ℚ` (and `ℝ` where `math.log` / `np.sqrt` appear).
-/

/-! ### String helpers mirroring the Python string methods used -/

/-- Python `str.strip()`: remove leading and trailing whitespace. -/
def strTrim (s : String) : String :=
  String.mk (((s.data.dropWhile Char.isWhitespace).reverse.dropWhile
      Char.isWhitespace).reverse)

/-- Auxiliary list-of-characters comparison for `strStarts`. -/
def strStartsAux : List Char → List Char → Bool
  | [], _ => true
  | _ :: _, [] => false
  | a :: as, b :: bs => a == b && strStartsAux as bs

/-- Python `s.startswith(p)`. -/
def strStarts (s p : String) : Bool :=
  strStartsAux p.data s.data

/-- Python `s.lstrip("• ")`: drop leading bullet and space characters. -/
def lstripBulletSpace (s : String) : String :=
  String.mk (s.data.dropWhile (fun c => c == '•' || c == ' '))

/-- Python `s.lstrip()`: drop leading whitespace. -/
def lstripWS (s : String) : String :=
  String.mk (s.data.dropWhile Char.isWhitespace)

/-- Python `"\n".join(lines)`. -/
def joinWithNL : List String → String
  | [] => ""
  | [s] => s
  | s :: rest => s ++ "\n" ++ joinWithNL rest

/-- Python `chunk.splitlines()` for strings whose only line separator is
`'\n'` and which do not end in `'\n'` (true of every flattened chunk,
which is a `"\n".join` of lines). -/
def splitLinesAux : List Char → List Char → List String
  | [], acc => [String.mk acc.reverse]
  | c :: cs, acc =>
      if c = '\n' then String.mk acc.reverse :: splitLinesAux cs []
      else splitLinesAux cs (c :: acc)

/-- Split a chunk into its lines.  See `splitLinesAux`. -/
def splitLines (s : String) : List String := splitLinesAux s.data []

/-- Indentation of `n` spaces (Python `' ' * n`). -/
def mkIndent (n : ℕ) : String := String.mk (List.replicate n ' ')

/-! ### Structured chunk records (the JSON corpus format)

A JSON entry has optional `Section`/`Subsection` headings (absent keys are
modelled as `""`, matching Python truthiness of `entry.get("Section")`)
and a list of content blocks, each with a text and an arbitrarily nested
list of items. -/

/-- A nested list item: a text and its sub-items. -/
inductive Item : Type where
  | mk : String → List Item → Item

/-- The text field of an item. -/
def Item.text : Item → String
  | .mk t _ => t

/-- The nested sub-items of an item. -/
def Item.children : Item → List Item
  | .mk _ cs => cs

/-- A content block: `{"text": ..., "list": [...]}`. -/
structure Block where
  text : String
  list : List Item

/-- A chunk entry: `Section`, `Subsection`, `Content`. -/
structure Entry where
  Section : String
  Subsection : String
  Content : List Block

namespace BM25Preprocessor

/-- `BM25Preprocessor.process_list(items, depth, lines)`: depth-0 items
append their stripped text as-is (even when blank); deeper items append
an indented `* ` line; then recurse into non-empty sublists. -/
def process_list : List Item → ℕ → List String → List String
  | [], _, lines => lines
  | Item.mk text children :: rest, depth, lines =>
      let raw := strTrim text
      let lines :=
        if depth = 0 then lines ++ [raw]
        else lines ++ [mkIndent (depth * 8) ++ "* " ++ strTrim (lstripBulletSpace raw)]
      let lines :=
        match children with
        | [] => lines
        | c :: cs => process_list (c :: cs) (depth + 1) lines
      process_list rest depth lines
termination_by items _ _ => sizeOf items
decreasing_by all_goals simp_wf <;> omega

/-- One iteration of the `for block in entry.get("Content", [])` loop of
`BM25Preprocessor.flatten_content`: append the stripped block text when
non-empty, then process the block's list. -/
def contentStep (lines : List String) (blk : Block) : List String :=
  let t := strTrim blk.text
  process_list blk.list 0 (if t ≠ "" then lines ++ [t] else lines)

/-- `BM25Preprocessor.flatten_content(entry)`. -/
def flatten_content (e : Entry) : String :=
  let lines := if e.Section ≠ "" then ["Section: " ++ e.Section ++ "."] else []
  let lines :=
    if e.Subsection ≠ "" then lines ++ ["Subsection: " ++ e.Subsection ++ "."]
    else lines
  joinWithNL (e.Content.foldl contentStep lines)

end BM25Preprocessor

namespace LegalKnowledgeIndexer

/-- `LegalKnowledgeIndexer.process_list(items, depth, lines)`: identical
to the BM25 variant except that nested items are prefixed with `- `. -/
def process_list : List Item → ℕ → List String → List String
  | [], _, lines => lines
  | Item.mk text children :: rest, depth, lines =>
      let raw := strTrim text
      let lines :=
        if depth = 0 then lines ++ [raw]
        else lines ++ [mkIndent (depth * 8) ++ "- " ++ strTrim (lstripBulletSpace raw)]
      let lines :=
        match children with
        | [] => lines
        | c :: cs => process_list (c :: cs) (depth + 1) lines
      process_list rest depth lines
termination_by items _ _ => sizeOf items
decreasing_by all_goals simp_wf <;> omega

/-- One iteration of the content-block loop of
`LegalKnowledgeIndexer.flatten_content` (this variant emits no heading
lines). -/
def contentStep (lines : List String) (blk : Block) : List String :=
  let t := strTrim blk.text
  process_list blk.list 0 (if t ≠ "" then lines ++ [t] else lines)

/-- The blank-line insertion pass of `LegalKnowledgeIndexer.flatten_content`
(`out_lines`): after a heading followed by a bullet, or any line followed
by a non-bullet, insert an empty line. -/
def insertBlanks : List String → List String
  | [] => []
  | [l] => [l]
  | l :: next :: rest =>
      let nextIsBullet := strStarts (lstripWS next) "•" || strStarts (lstripWS next) "-"
      let isHeading := strStarts l "Section:" || strStarts l "Subsection:"
      l :: ((if (isHeading && nextIsBullet) || !nextIsBullet then [""] else [])
        ++ insertBlanks (next :: rest))

/-- `LegalKnowledgeIndexer.flatten_content(entry)`. -/
def flatten_content (e : Entry) : String :=
  joinWithNL (insertBlanks (e.Content.foldl contentStep []))

end LegalKnowledgeIndexer

/-- Total number of items in a nested item list (each item appends exactly
one line in `process_list`). -/
def itemCount : List Item → ℕ
  | [] => 0
  | Item.mk _ cs :: rest => 1 + itemCount cs + itemCount rest

/-! ### The lexical (BM25) index

`BM25Preprocessor.load_and_prepare` builds: `postings[term][doc] = tf`
(a Python dict whose keys appear in ascending document order, because the
build iterates documents in order), `doc_len`, `avgdl` and `idf`.  A
document is its normalized token list.  The `idf` values the code stores
are `math.log` results, so the index carries an arbitrary `String → ℚ`
idf assignment; the log formula itself is `idfArg`/`Real.log` below. -/

/-- The postings entries for term `t` over the documents `docs`, starting
at document index `i`: pairs `(doc index, term frequency)` for every
document containing `t`, in ascending index order (Python dict insertion
order). -/
def postingsAux (t : String) : List (List String) → ℕ → List (ℕ × ℕ)
  | [], _ => []
  | d :: ds, i =>
      (if 0 < d.count t then [(i, d.count t)] else []) ++ postingsAux t ds (i + 1)

/-- `self.postings[t]` after `load_and_prepare`; `[]` means `t` is not a
key of the postings map. -/
def postingsOf (docs : List (List String)) (t : String) : List (ℕ × ℕ) :=
  postingsAux t docs 0

/-- `self.df[t]`: number of documents containing `t`. -/
def dfOf (docs : List (List String)) (t : String) : ℕ :=
  (postingsOf docs t).length

/-- `self.avgdl`: `total_len / self.N if self.N else 0`. -/
def avgdlOf (docs : List (List String)) : ℚ :=
  if docs.length = 0 then 0
  else ((docs.map List.length).sum : ℚ) / (docs.length : ℚ)

/-- The argument of the `math.log` in the idf formula of
`load_and_prepare`: `(N - df + 0.5) / (df + 0.5) + 1`. -/
def idfArg (N df : ℕ) : ℚ :=
  ((N : ℚ) - (df : ℚ) + 1/2) / ((df : ℚ) + 1/2) + 1

/-- The index state read by `score_subset`: `postings`, `idf`, `doc_len`,
`avgdl` and the constants `k1`, `b`. -/
structure BM25Index where
  postings : String → List (ℕ × ℕ)
  idf : String → ℚ
  doc_len : List ℕ
  avgdl : ℚ
  k1 : ℚ
  b : ℚ

/-- `load_and_prepare` over already-normalized documents.  `idf` is the
stored idf map (in the source, `math.log (idfArg N df)` per term). -/
def load_and_prepare (docs : List (List String)) (idf : String → ℚ)
    (k1 b : ℚ) : BM25Index :=
  { postings := postingsOf docs
    idf := idf
    doc_len := docs.map List.length
    avgdl := avgdlOf docs
    k1 := k1
    b := b }

/-- `self.doc_len[doc_id]` (every `doc_id` taken from postings is in
range, so the default is never read on the source's executions). -/
def dlAt (idx : BM25Index) (d : ℕ) : ℕ := idx.doc_len.getD d 0

/-- One BM25 accumulation step of `score_subset`:
`idf * tf * (k1 + 1) / (tf + k1 * (1 - b + b * dl / avgdl))`. -/
def bm25Contrib (k1 b idfv : ℚ) (freq dl : ℕ) (avgdl : ℚ) : ℚ :=
  idfv * (freq : ℚ) * (k1 + 1) /
    ((freq : ℚ) + k1 * (1 - b + b * (dl : ℚ) / avgdl))

/-- Python `scores[d] = scores.get(d, 0.0) + c` on an insertion-ordered
dict: update in place when the key exists, append otherwise. -/
def addScore : List (ℕ × ℚ) → ℕ → ℚ → List (ℕ × ℚ)
  | [], d, c => [(d, c)]
  | (k, v) :: rest, d, c =>
      if k = d then (k, v + c) :: rest else (k, v) :: addScore rest d c

/-- `scores.get(d, 0.0)`. -/
def getScore : List (ℕ × ℚ) → ℕ → ℚ
  | [], _ => 0
  | (k, v) :: rest, d => if k = d then v else getScore rest d

/-- The inner loop of `score_subset`: fold the postings entries of one
term, accumulating a contribution for every entry whose document is in
`candidate_ids`. -/
def accumEntries (idx : BM25Index) (cands : List ℕ) (idfv : ℚ) :
    List (ℕ × ℕ) → List (ℕ × ℚ) → List (ℕ × ℚ)
  | [], s => s
  | (d, f) :: rest, s =>
      accumEntries idx cands idfv rest
        (if d ∈ cands then
          addScore s d (bm25Contrib idx.k1 idx.b idfv f (dlAt idx d) idx.avgdl)
        else s)

/-- One iteration of the `for tok in q_tokens` loop of `score_subset`:
skip tokens absent from the postings map, otherwise accumulate over the
token's postings with `idf.get(tok, 0.0)`. -/
def accumTok (idx : BM25Index) (cands : List ℕ) (s : List (ℕ × ℚ))
    (t : String) : List (ℕ × ℚ) :=
  if idx.postings t = [] then s
  else accumEntries idx cands (idx.idf t) (idx.postings t) s

/-- The `scores` dict after the full query loop of `score_subset`. -/
def accumScores (idx : BM25Index) (qTokens : List String) (cands : List ℕ) :
    List (ℕ × ℚ) :=
  qTokens.foldl (accumTok idx cands) []

/-- Stable descending insertion (the effect of Python
`sorted(..., key=lambda x: x[1], reverse=True)`, which is a stable sort):
an earlier entry is placed before every later entry of equal score. -/
def insertDesc (x : ℕ × ℚ) : List (ℕ × ℚ) → List (ℕ × ℚ)
  | [] => [x]
  | y :: ys => if x.2 < y.2 then y :: insertDesc x ys else x :: y :: ys

/-- Stable sort by descending score. -/
def sortDesc : List (ℕ × ℚ) → List (ℕ × ℚ)
  | [] => []
  | x :: xs => insertDesc x (sortDesc xs)

/-- `BM25Preprocessor.score_subset(query, candidate_ids, top_k)` on the
query's normalized token list: accumulate BM25 scores, sort descending
(stable), return the first `top_k`. -/
def score_subset (idx : BM25Index) (qTokens : List String)
    (candidate_ids : List ℕ) (top_k : ℕ) : List (ℕ × ℚ) :=
  (sortDesc (accumScores idx qTokens candidate_ids)).take top_k

/-! Specification-side restatement used by claim C1: a chunk's score is
the sum, over the query's tokens, of the BM25 formula contribution of
each token the chunk contains (zero for tokens without postings entry or
chunks outside the candidate set). -/

/-- First-match association lookup in a postings list. -/
def lookupTF (d : ℕ) : List (ℕ × ℕ) → Option ℕ
  | [] => none
  | (k, f) :: rest => if k = d then some f else lookupTF d rest

/-- The claimed per-token contribution of token `t` to chunk `d`. -/
def specContrib (idx : BM25Index) (cands : List ℕ) (t : String) (d : ℕ) : ℚ :=
  if d ∈ cands then
    match lookupTF d (idx.postings t) with
    | some f => bm25Contrib idx.k1 idx.b (idx.idf t) f (dlAt idx d) idx.avgdl
    | none => 0
  else 0

/-- The claimed final score of chunk `d`: sum of `specContrib` over the
query's tokens. -/
def specScore (idx : BM25Index) (qTokens : List String) (cands : List ℕ)
    (d : ℕ) : ℚ :=
  (qTokens.map (fun t => specContrib idx cands t d)).sum

/-! ### The hybrid retriever's post-processing (`HybridRetrieval.run`) -/

/-- Cleaning of one retrieved chunk in `HybridRetrieval.run`: split into
lines, pop leading lines starting with `"Section:"`, rejoin, strip. -/
def cleanChunk (chunk : String) : String :=
  strTrim (joinWithNL ((splitLines chunk).dropWhile
    (fun l => strStarts l "Section:")))

/-- The result loop of `HybridRetrieval.run`: map each BM25 hit to its
cleaned raw chunk. -/
def runClean (raw_chunks : List String) (hits : List (ℕ × ℚ)) : List String :=
  hits.map (fun h => cleanChunk (raw_chunks.getD h.1 ""))

/-- `HybridRetrieval.run` after the semantic stage: BM25 rerank of the
candidate ids followed by chunk cleaning. -/
def hybrid_run (raw_chunks : List String) (idx : BM25Index)
    (qTokens : List String) (cands : List ℕ) (top_k_bm25 : ℕ) : List String :=
  runClean raw_chunks (score_subset idx qTokens cands top_k_bm25)

/-! ### Semantic index id lookup (`LegalKnowledgeIndexer.query`) -/

/-- Python list indexing `l[i]` (negative indices count from the end;
out-of-range access is an error, modelled as `none`). -/
def pyGet {α : Type} (l : List α) (i : ℤ) : Option α :=
  let j : ℤ := if i < 0 then i + (l.length : ℤ) else i
  if 0 ≤ j then l.get? j.toNat else none

/-- The id-resolution step of `LegalKnowledgeIndexer.query`:
`[self.ids[idx] for idx in I[0]]` over the FAISS result labels
(`none` models the `IndexError` raised on an out-of-range label). -/
def queryLookupIds (ids : List String) (labels : List ℤ) : Option (List String) :=
  labels.mapM (pyGet ids)

/-! ### Embedding validation (`LegalKnowledgeIndexer.embed`)

`np.allclose(norms, 1.0, atol=1e-6)` uses numpy's default relative
tolerance `rtol=1e-5`, so a norm `n` passes iff
`|n - 1| ≤ atol + rtol * |1.0| = 1.1e-5`.  The norm of a vector `v` is
`Real.sqrt (sumSq v)`; the check is computed here by the equivalent
squared comparison (`normClose_iff` below proves the equivalence).
`NaN`/`Inf` components are not representable in exact arithmetic; for any
vector of rationals the `np.isnan`/`np.isinf` test is false. -/

/-- Sum of squared components of an embedding vector. -/
def sumSq (v : List ℚ) : ℚ := (v.map (fun x => x * x)).sum

/-- `atol + rtol * |1.0|` for `np.allclose(..., 1.0, atol=1e-6)` with
numpy's default `rtol=1e-5`. -/
def allcloseTol : ℚ := 1/1000000 + 1/100000

/-- The per-vector `np.allclose` norm test, decided by comparing squares:
`|sqrt (sumSq v) - 1| ≤ allcloseTol`. -/
def normClose (v : List ℚ) : Bool :=
  decide ((1 - allcloseTol) ^ 2 ≤ sumSq v ∧ sumSq v ≤ (1 + allcloseTol) ^ 2)

/-- `LegalKnowledgeIndexer.embed` on the embedding matrix produced by the
model: raise (`none`) when some norm fails the `allclose` test, otherwise
return the embeddings unchanged. -/
def embed (embs : List (List ℚ)) : Option (List (List ℚ)) :=
  if embs.all normClose then some embs else none


/-! ### Helper lemmas: the score accumulator -/

theorem getScore_addScore (s : List (ℕ × ℚ)) (d : ℕ) (c : ℚ) (e : ℕ) :
    getScore (addScore s d c) e = getScore s e + (if d = e then c else 0) := by
  induction s with
  | nil =>
      by_cases h : d = e <;> simp [addScore, getScore, h]
  | cons p rest ih =>
      obtain ⟨k, v⟩ := p
      by_cases hk : k = d
      · subst hk
        by_cases he : k = e
        · subst he
          simp [addScore, getScore]
        · simp [addScore, getScore, he, fun h : k = e => he h]
      · by_cases he : k = e
        · subst he
          have hd : ¬ d = k := fun h => hk h.symm
          simp [addScore, getScore, hk, hd]
        · simp [addScore, getScore, hk, he, ih]

theorem mem_addScore (s : List (ℕ × ℚ)) (d : ℕ) (c : ℚ) (p : ℕ × ℚ)
    (hp : p ∈ addScore s d c) :
    p ∈ s ∨ p.2 = c ∨ ∃ q ∈ s, p.2 = q.2 + c := by
  induction s with
  | nil =>
      simp [addScore] at hp
      subst hp
      simp
  | cons q rest ih =>
      obtain ⟨k, v⟩ := q
      by_cases hk : k = d
      · subst hk
        simp [addScore] at hp
        rcases hp with h | h
        · right; right
          exact ⟨(k, v), by simp, by simp [h]⟩
        · left; simp [h]
      · simp [addScore, hk] at hp
        rcases hp with h | h
        · left; simp [h]
        · rcases ih h with h' | h' | ⟨q, hq, h'⟩
          · left; simp [h']
          · right; left; exact h'
          · right; right; exact ⟨q, by simp [hq], h'⟩

/-! ### Helper lemmas: postings structure -/

theorem mem_postingsAux_lb (t : String) (docs : List (List String)) (i : ℕ)
    (p : ℕ × ℕ) (hp : p ∈ postingsAux t docs i) : i ≤ p.1 := by
  induction docs generalizing i with
  | nil => simp [postingsAux] at hp
  | cons d ds ih =>
      simp only [postingsAux, List.mem_append] at hp
      rcases hp with h | h
      · by_cases hc : 0 < d.count t
        · simp [hc] at h
          subst h
          exact le_refl _
        · simp [hc] at h
      · exact le_trans (Nat.le_succ i) (ih (i + 1) h)

theorem mem_postingsAux_tf_pos (t : String) (docs : List (List String)) (i : ℕ)
    (p : ℕ × ℕ) (hp : p ∈ postingsAux t docs i) : 0 < p.2 := by
  induction docs generalizing i with
  | nil => simp [postingsAux] at hp
  | cons d ds ih =>
      simp only [postingsAux, List.mem_append] at hp
      rcases hp with h | h
      · by_cases hc : 0 < d.count t
        · simp [hc] at h
          subst h
          exact hc
        · simp [hc] at h
      · exact ih (i + 1) h

theorem postingsAux_keys_distinct (t : String) (docs : List (List String)) (i : ℕ) :
    (postingsAux t docs i).Pairwise (fun p q => p.1 ≠ q.1) := by
  induction docs generalizing i with
  | nil => simp [postingsAux]
  | cons d ds ih =>
      simp only [postingsAux]
      by_cases hc : 0 < d.count t
      · simp only [hc, if_pos, List.singleton_append]
        refine List.Pairwise.cons ?_ (ih (i + 1))
        intro q hq
        have := mem_postingsAux_lb t ds (i + 1) q hq
        omega
      · simp only [hc, if_neg, List.nil_append, ite_false]
        exact ih (i + 1)

theorem mem_postingsAux_doc (t : String) (docs : List (List String)) (i : ℕ)
    (p : ℕ × ℕ) (hp : p ∈ postingsAux t docs i) :
    ∃ doc ∈ docs, 0 < doc.count t := by
  induction docs generalizing i with
  | nil => simp [postingsAux] at hp
  | cons d ds ih =>
      simp only [postingsAux, List.mem_append] at hp
      rcases hp with h | h
      · by_cases hc : 0 < d.count t
        · exact ⟨d, by simp, hc⟩
        · simp [hc] at h
      · obtain ⟨doc, hdoc, hcount⟩ := ih (i + 1) h
        exact ⟨doc, by simp [hdoc], hcount⟩

theorem postingsAux_of_blank (t : String) (docs : List (List String)) (i : ℕ)
    (h : ∀ doc ∈ docs, doc.count t = 0) : postingsAux t docs i = [] := by
  induction docs generalizing i with
  | nil => simp [postingsAux]
  | cons d ds ih =>
      have hd : d.count t = 0 := h d (by simp)
      simp only [postingsAux, hd]
      simp [ih (i + 1) (fun doc hdoc => h doc (by simp [hdoc]))]

theorem length_postingsAux_le (t : String) (docs : List (List String)) (i : ℕ) :
    (postingsAux t docs i).length ≤ docs.length := by
  induction docs generalizing i with
  | nil => simp [postingsAux]
  | cons d ds ih =>
      simp only [postingsAux, List.length_append, List.length_cons]
      by_cases hc : 0 < d.count t
      · simp only [hc, if_pos]
        have := ih (i + 1)
        simp
        omega
      · simp only [hc, if_neg, ite_false]
        have := ih (i + 1)
        simp
        omega

/-! ### Helper lemmas: average document length -/

theorem avgdlOf_nonneg (docs : List (List String)) : 0 ≤ avgdlOf docs := by
  unfold avgdlOf
  by_cases h : docs.length = 0
  · simp [h]
  · simp only [h, if_neg, ite_false]
    apply div_nonneg
    · positivity
    · positivity

theorem avgdlOf_pos (docs : List (List String)) (t : String)
    (h : postingsOf docs t ≠ []) : 0 < avgdlOf docs := by
  obtain ⟨p, hp⟩ := List.exists_mem_of_ne_nil _ h
  obtain ⟨doc, hdoc, hcount⟩ := mem_postingsAux_doc t docs 0 p hp
  have hlen : 0 < doc.length := lt_of_lt_of_le hcount (List.count_le_length t doc)
  have hN : docs.length ≠ 0 := by
    intro h0
    rw [List.length_eq_zero] at h0
    subst h0
    simp at hdoc
  have htot : 0 < ((docs.map List.length).sum : ℚ) := by
    have : doc.length ≤ (docs.map List.length).sum :=
      List.single_le_sum (fun x _ => Nat.zero_le x) _ (List.mem_map_of_mem _ hdoc)
    have : 0 < (docs.map List.length).sum := lt_of_lt_of_le hlen this
    exact_mod_cast this
  unfold avgdlOf
  simp only [hN, if_neg, ite_false]
  apply div_pos htot
  have : 0 < docs.length := Nat.pos_of_ne_zero hN
  exact_mod_cast this

theorem avgdlOf_eq_zero (docs : List (List String)) (h : avgdlOf docs = 0)
    (t : String) : postingsOf docs t = [] := by
  apply postingsAux_of_blank
  intro doc hdoc
  by_contra hc
  have hcount : 0 < doc.count t := Nat.pos_of_ne_zero hc
  have : postingsOf docs t ≠ [] := by
    intro hnil
    have : ∃ p, p ∈ postingsOf docs t := by
      clear h hnil
      unfold postingsOf
      generalize 0 = i
      induction docs generalizing i with
      | nil => simp at hdoc
      | cons d ds ih =>
          rcases List.mem_cons.mp hdoc with h' | h'
          · subst h'
            refine ⟨(i, doc.count t), ?_⟩
            simp [postingsAux, hcount]
          · obtain ⟨p, hp⟩ := ih h' (i + 1)
            exact ⟨p, by simp [postingsAux, List.mem_append, hp]⟩
    obtain ⟨p, hp⟩ := this
    rw [hnil] at hp
    simp at hp
  exact absurd h (by simpa using (ne_of_gt (avgdlOf_pos docs t this)))

/-! ### Helper lemmas: the per-term accumulation equals the spec formula -/

theorem getScore_accumEntries_absent (idx : BM25Index) (cands : List ℕ)
    (idfv : ℚ) (entries : List (ℕ × ℕ)) (s : List (ℕ × ℚ)) (e : ℕ)
    (h : ∀ p ∈ entries, p.1 ≠ e) :
    getScore (accumEntries idx cands idfv entries s) e = getScore s e := by
  induction entries generalizing s with
  | nil => simp [accumEntries]
  | cons p rest ih =>
      obtain ⟨d, f⟩ := p
      have hd : d ≠ e := h (d, f) (by simp)
      simp only [accumEntries]
      rw [ih _ (fun q hq => h q (by simp [hq]))]
      by_cases hc : d ∈ cands
      · simp [hc, getScore_addScore, hd]
      · simp [hc]

theorem getScore_accumEntries (idx : BM25Index) (cands : List ℕ)
    (idfv : ℚ) (entries : List (ℕ × ℕ)) (s : List (ℕ × ℚ)) (e : ℕ)
    (hdist : entries.Pairwise (fun p q => p.1 ≠ q.1)) :
    getScore (accumEntries idx cands idfv entries s) e =
      getScore s e +
        (if e ∈ cands then
          match lookupTF e entries with
          | some f => bm25Contrib idx.k1 idx.b idfv f (dlAt idx e) idx.avgdl
          | none => 0
        else 0) := by
  induction entries generalizing s with
  | nil => simp [accumEntries, lookupTF]
  | cons p rest ih =>
      obtain ⟨d, f⟩ := p
      rw [List.pairwise_cons] at hdist
      obtain ⟨hhead, htail⟩ := hdist
      by_cases hd : d = e
      · subst hd
        simp only [accumEntries]
        rw [getScore_accumEntries_absent idx cands idfv rest _ d
          (fun q hq => fun hqe => hhead q hq hqe.symm)]
        by_cases hc : d ∈ cands
        · simp [hc, getScore_addScore, lookupTF]
        · simp [hc, lookupTF]
      · simp only [accumEntries]
        rw [ih _ htail]
        have hlk : lookupTF e ((d, f) :: rest) = lookupTF e rest := by
          simp [lookupTF, hd]
        rw [hlk]
        by_cases hc : d ∈ cands
        · simp [hc, getScore_addScore, hd]
        · simp [hc]

theorem getScore_accumTok (idx : BM25Index) (cands : List ℕ)
    (s : List (ℕ × ℚ)) (t : String) (e : ℕ)
    (hdist : (idx.postings t).Pairwise (fun p q => p.1 ≠ q.1)) :
    getScore (accumTok idx cands s t) e =
      getScore s e + specContrib idx cands t e := by
  unfold accumTok specContrib
  by_cases h : idx.postings t = []
  · simp [h, lookupTF]
  · simp only [h, if_neg, ite_false]
    rw [getScore_accumEntries idx cands (idx.idf t) _ s e hdist]

theorem getScore_foldl_accumTok (idx : BM25Index) (cands : List ℕ)
    (ts : List String) (s : List (ℕ × ℚ)) (e : ℕ)
    (hdist : ∀ t, (idx.postings t).Pairwise (fun p q => p.1 ≠ q.1)) :
    getScore (ts.foldl (accumTok idx cands) s) e =
      getScore s e + (ts.map (fun t => specContrib idx cands t e)).sum := by
  induction ts generalizing s with
  | nil => simp
  | cons t rest ih =>
      simp only [List.foldl_cons, List.map_cons, List.sum_cons]
      rw [ih, getScore_accumTok idx cands s t e (hdist t)]
      ring

/-! ### Helper lemmas: the stable descending sort -/

theorem insertDesc_perm (x : ℕ × ℚ) (l : List (ℕ × ℚ)) :
    List.Perm (insertDesc x l) (x :: l) := by
  induction l with
  | nil => simp [insertDesc]
  | cons y ys ih =>
      by_cases h : x.2 < y.2
      · simp only [insertDesc, h, if_pos]
        exact List.Perm.trans (List.Perm.cons y ih) (List.Perm.swap x y ys)
      · simp [insertDesc, h]

theorem sortDesc_perm (l : List (ℕ × ℚ)) : List.Perm (sortDesc l) l := by
  induction l with
  | nil => simp [sortDesc]
  | cons x xs ih =>
      exact List.Perm.trans (insertDesc_perm x (sortDesc xs)) (List.Perm.cons x ih)

theorem insertDesc_sorted (x : ℕ × ℚ) (l : List (ℕ × ℚ))
    (hl : l.Pairwise (fun a b => b.2 ≤ a.2)) :
    (insertDesc x l).Pairwise (fun a b => b.2 ≤ a.2) := by
  induction l with
  | nil => simp [insertDesc]
  | cons y ys ih =>
      rw [List.pairwise_cons] at hl
      obtain ⟨hy, hys⟩ := hl
      by_cases h : x.2 < y.2
      · simp only [insertDesc, h, if_pos]
        rw [List.pairwise_cons]
        constructor
        · intro z hz
          have := (insertDesc_perm x ys).mem_iff.mp hz
          rcases List.mem_cons.mp this with h' | h'
          · subst h'; exact le_of_lt h
          · exact hy z h'
        · exact ih hys
      · simp only [insertDesc, h, ite_false]
        rw [List.pairwise_cons]
        constructor
        · intro z hz
          rcases List.mem_cons.mp hz with h' | h'
          · subst h'; exact not_lt.mp h
          · exact le_trans (hy z h') (not_lt.mp h)
        · rw [List.pairwise_cons]
          exact ⟨hy, hys⟩

theorem sortDesc_sorted (l : List (ℕ × ℚ)) :
    (sortDesc l).Pairwise (fun a b => b.2 ≤ a.2) := by
  induction l with
  | nil => simp [sortDesc]
  | cons x xs ih => exact insertDesc_sorted x (sortDesc xs) ih

theorem sublist_insertDesc (x : ℕ × ℚ) (l : List (ℕ × ℚ)) :
    l.Sublist (insertDesc x l) := by
  induction l with
  | nil => simp [insertDesc]
  | cons y ys ih =>
      by_cases h : x.2 < y.2
      · simp only [insertDesc, h, if_pos]
        exact List.Sublist.cons₂ y ih
      · simp only [insertDesc, h, ite_false]
        exact List.Sublist.cons x (List.Sublist.refl _)

theorem insertDesc_pair_sublist (x b : ℕ × ℚ) (l : List (ℕ × ℚ))
    (hl : l.Pairwise (fun a c => c.2 ≤ a.2)) (hb : b ∈ l) (hbx : b.2 ≤ x.2) :
    [x, b].Sublist (insertDesc x l) := by
  induction l with
  | nil => simp at hb
  | cons y ys ih =>
      rw [List.pairwise_cons] at hl
      obtain ⟨hy, hys⟩ := hl
      by_cases h : x.2 < y.2
      · simp only [insertDesc, h, if_pos]
        rcases List.mem_cons.mp hb with h' | h'
        · subst h'
          exact absurd (lt_of_le_of_lt hbx h) (lt_irrefl _)
        · exact List.Sublist.cons y (ih hys h')
      · simp only [insertDesc, h, ite_false]
        have : [b].Sublist (y :: ys) := List.singleton_sublist.mpr hb
        exact List.Sublist.cons₂ x this

theorem sortDesc_stable (a b : ℕ × ℚ) (l : List (ℕ × ℚ))
    (hab : [a, b].Sublist l) (hba : b.2 ≤ a.2) :
    [a, b].Sublist (sortDesc l) := by
  induction l with
  | nil => simp at hab
  | cons x xs ih =>
      cases hab with
      | cons _ h =>
          exact (ih h).trans (sublist_insertDesc x (sortDesc xs))
      | cons₂ _ h =>
          have hb : b ∈ sortDesc xs :=
            (sortDesc_perm xs).mem_iff.mpr (List.singleton_sublist.mp h)
          exact insertDesc_pair_sublist a b (sortDesc xs) (sortDesc_sorted xs) hb hba

/-! ### Helper lemmas: positivity of denominators and scores -/

theorem bm25_denom_pos (k1 b avgdl : ℚ) (f dl : ℕ)
    (hk : 0 < k1) (hb0 : 0 ≤ b) (hb1 : b ≤ 1) (havg : 0 ≤ avgdl)
    (hf : 1 ≤ f) :
    0 < (f : ℚ) + k1 * (1 - b + b * (dl : ℚ) / avgdl) := by
  have h1 : (1 : ℚ) ≤ (f : ℚ) := by exact_mod_cast hf
  have h2 : 0 ≤ b * (dl : ℚ) / avgdl :=
    div_nonneg (mul_nonneg hb0 (by positivity)) havg
  nlinarith

theorem bm25Contrib_pos (k1 b idfv avgdl : ℚ) (f dl : ℕ)
    (hk : 0 < k1) (hb0 : 0 ≤ b) (hb1 : b ≤ 1) (havg : 0 ≤ avgdl)
    (hf : 1 ≤ f) (hidf : 0 < idfv) :
    0 < bm25Contrib k1 b idfv f dl avgdl := by
  unfold bm25Contrib
  have hden := bm25_denom_pos k1 b avgdl f dl hk hb0 hb1 havg hf
  have hf' : (0 : ℚ) < (f : ℚ) := by
    have : (1 : ℚ) ≤ (f : ℚ) := by exact_mod_cast hf
    linarith
  apply div_pos _ hden
  have : 0 < k1 + 1 := by linarith
  positivity

theorem mem_addScore_pos (s : List (ℕ × ℚ)) (d : ℕ) (c : ℚ)
    (hs : ∀ p ∈ s, 0 < p.2) (hc : 0 < c) :
    ∀ p ∈ addScore s d c, 0 < p.2 := by
  intro p hp
  rcases mem_addScore s d c p hp with h | h | ⟨q, hq, h⟩
  · exact hs p h
  · rw [h]; exact hc
  · rw [h]
    have := hs q hq
    linarith

theorem mem_accumEntries_pos (idx : BM25Index) (cands : List ℕ) (idfv : ℚ)
    (entries : List (ℕ × ℕ)) (s : List (ℕ × ℚ))
    (hs : ∀ p ∈ s, 0 < p.2)
    (hpos : ∀ p ∈ entries,
      0 < bm25Contrib idx.k1 idx.b idfv p.2 (dlAt idx p.1) idx.avgdl) :
    ∀ p ∈ accumEntries idx cands idfv entries s, 0 < p.2 := by
  induction entries generalizing s with
  | nil => simpa [accumEntries] using hs
  | cons q rest ih =>
      obtain ⟨d, f⟩ := q
      simp only [accumEntries]
      apply ih
      · by_cases hc : d ∈ cands
        · simp only [hc, if_pos]
          exact mem_addScore_pos s d _ hs (hpos (d, f) (by simp))
        · simpa [hc] using hs
      · intro p hp
        exact hpos p (by simp [hp])

theorem mem_accumScores_pos (docs : List (List String)) (idf : String → ℚ)
    (k1 b : ℚ) (qTokens : List String) (cands : List ℕ)
    (hk : 0 < k1) (hb0 : 0 ≤ b) (hb1 : b ≤ 1)
    (hidf : ∀ t, postingsOf docs t ≠ [] → 0 < idf t) :
    ∀ p ∈ accumScores (load_and_prepare docs idf k1 b) qTokens cands,
      0 < p.2 := by
  unfold accumScores
  have base : ∀ p ∈ ([] : List (ℕ × ℚ)), 0 < p.2 := by simp
  generalize hs : ([] : List (ℕ × ℚ)) = s at base
  clear hs
  induction qTokens generalizing s with
  | nil => simpa using base
  | cons t rest ih =>
      simp only [List.foldl_cons]
      apply ih
      unfold accumTok
      by_cases h : (load_and_prepare docs idf k1 b).postings t = []
      · simpa [h] using base
      · simp only [h, if_neg, ite_false]
        apply mem_accumEntries_pos _ _ _ _ _ base
        intro p hp
        have hpostings : (load_and_prepare docs idf k1 b).postings t
            = postingsOf docs t := rfl
        rw [hpostings] at hp h
        apply bm25Contrib_pos
        · exact hk
        · exact hb0
        · exact hb1
        · show 0 ≤ (load_and_prepare docs idf k1 b).avgdl
          exact avgdlOf_nonneg docs
        · exact mem_postingsAux_tf_pos t docs 0 p hp
        · show 0 < idf t
          exact hidf t h

/-! ### Helper lemmas: empty corpus and skipped terms -/

theorem accumScores_all_empty (idx : BM25Index) (qTokens : List String)
    (cands : List ℕ) (h : ∀ t, idx.postings t = []) :
    accumScores idx qTokens cands = [] := by
  unfold accumScores
  induction qTokens with
  | nil => simp
  | cons t rest ih =>
      simp only [List.foldl_cons]
      rw [show accumTok idx cands [] t = [] by simp [accumTok, h t]]
      exact ih

theorem score_subset_all_empty (idx : BM25Index) (qTokens : List String)
    (cands : List ℕ) (k : ℕ) (h : ∀ t, idx.postings t = []) :
    score_subset idx qTokens cands k = [] := by
  unfold score_subset
  rw [accumScores_all_empty idx qTokens cands h]
  simp [sortDesc]

/-! ### Helper lemmas: dropWhile head and list shapes -/

theorem dropWhile_head_not (p : String → Bool) (l : List String) :
    l.dropWhile p = [] ∨
      ∃ x rest, l.dropWhile p = x :: rest ∧ p x = false := by
  induction l with
  | nil => simp
  | cons y ys ih =>
      by_cases h : p y
      · simpa [List.dropWhile, h] using ih
      · right
        refine ⟨y, ys, ?_, by simp [h]⟩
        simp [List.dropWhile, h]

/-! ### Helper lemmas: embedding norms and the idf logarithm -/

theorem sumSq_nonneg (v : List ℚ) : 0 ≤ sumSq v := by
  unfold sumSq
  induction v with
  | nil => simp
  | cons x xs ih =>
      simp only [List.map_cons, List.sum_cons]
      nlinarith [sq_nonneg x]

theorem allcloseTol_lt_one : allcloseTol < 1 := by norm_num [allcloseTol]

theorem allcloseTol_pos : 0 < allcloseTol := by norm_num [allcloseTol]

theorem normClose_iff (v : List ℚ) :
    normClose v = true ↔
      |Real.sqrt ((sumSq v : ℚ) : ℝ) - 1| ≤ ((allcloseTol : ℚ) : ℝ) := by
  have hs : (0 : ℝ) ≤ ((sumSq v : ℚ) : ℝ) := by
    exact_mod_cast sumSq_nonneg v
  have ht0 : (0 : ℝ) < ((allcloseTol : ℚ) : ℝ) := by exact_mod_cast allcloseTol_pos
  have ht1 : ((allcloseTol : ℚ) : ℝ) < 1 := by exact_mod_cast allcloseTol_lt_one
  have hlo_iff : ((1 - allcloseTol) ^ 2 ≤ sumSq v) ↔
      ((1 - ((allcloseTol : ℚ) : ℝ)) ^ 2 ≤ ((sumSq v : ℚ) : ℝ)) := by
    exact_mod_cast Iff.rfl
  have hhi_iff : (sumSq v ≤ (1 + allcloseTol) ^ 2) ↔
      (((sumSq v : ℚ) : ℝ) ≤ (1 + ((allcloseTol : ℚ) : ℝ)) ^ 2) := by
    exact_mod_cast Iff.rfl
  rw [normClose, decide_eq_true_iff, abs_sub_le_iff, hlo_iff, hhi_iff]
  constructor
  · rintro ⟨hlo, hhi⟩
    constructor
    · have h1 : Real.sqrt ((sumSq v : ℚ) : ℝ) ≤ 1 + ((allcloseTol : ℚ) : ℝ) := by
        rw [Real.sqrt_le_iff]
        exact ⟨by linarith, hhi⟩
      linarith
    · have h2 : (1 : ℝ) - ((allcloseTol : ℚ) : ℝ) ≤ Real.sqrt ((sumSq v : ℚ) : ℝ) := by
        rw [Real.le_sqrt (by linarith) hs]
        exact hlo
      linarith
  · rintro ⟨hhi, hlo⟩
    have h1 : Real.sqrt ((sumSq v : ℚ) : ℝ) ≤ 1 + ((allcloseTol : ℚ) : ℝ) := by
      linarith
    have h2 : (1 : ℝ) - ((allcloseTol : ℚ) : ℝ) ≤ Real.sqrt ((sumSq v : ℚ) : ℝ) := by
      linarith
    exact ⟨(Real.le_sqrt (by linarith) hs).mp h2, (Real.sqrt_le_iff.mp h1).2⟩

theorem idfArg_gt_one (N df : ℕ) (hdf : df ≤ N) : 1 < idfArg N df := by
  unfold idfArg
  have hnum : (0 : ℚ) < (N : ℚ) - (df : ℚ) + 1/2 := by
    have : (df : ℚ) ≤ (N : ℚ) := by exact_mod_cast hdf
    linarith
  have hden : (0 : ℚ) < (df : ℚ) + 1/2 := by positivity
  have := div_pos hnum hden
  linarith

/-! ### Helper lemmas: `process_list` appends one line per item -/

theorem bm25_process_list_length :
    ∀ (items : List Item) (depth : ℕ) (lines : List String),
      (BM25Preprocessor.process_list items depth lines).length =
        lines.length + itemCount items
  | [], depth, lines => by
      rw [BM25Preprocessor.process_list]; simp [itemCount]
  | Item.mk text children :: rest, depth, lines => by
      have ih2 := bm25_process_list_length rest
      rw [BM25Preprocessor.process_list.eq_def]
      cases children with
      | nil =>
          by_cases hd : depth = 0 <;>
            simp [hd, ih2, itemCount, Nat.add_assoc, Nat.add_comm, Nat.add_left_comm]
      | cons c cs =>
          have ih1 := bm25_process_list_length (c :: cs)
          by_cases hd : depth = 0 <;>
            simp [hd, ih1, ih2, itemCount, Nat.add_assoc, Nat.add_comm, Nat.add_left_comm]
termination_by items _ _ => sizeOf items
decreasing_by all_goals simp_wf <;> omega

theorem sem_process_list_length :
    ∀ (items : List Item) (depth : ℕ) (lines : List String),
      (LegalKnowledgeIndexer.process_list items depth lines).length =
        lines.length + itemCount items
  | [], depth, lines => by
      rw [LegalKnowledgeIndexer.process_list]; simp [itemCount]
  | Item.mk text children :: rest, depth, lines => by
      have ih2 := sem_process_list_length rest
      rw [LegalKnowledgeIndexer.process_list.eq_def]
      cases children with
      | nil =>
          by_cases hd : depth = 0 <;>
            simp [hd, ih2, itemCount, Nat.add_assoc, Nat.add_comm, Nat.add_left_comm]
      | cons c cs =>
          have ih1 := sem_process_list_length (c :: cs)
          by_cases hd : depth = 0 <;>
            simp [hd, ih1, ih2, itemCount, Nat.add_assoc, Nat.add_comm, Nat.add_left_comm]
termination_by items _ _ => sizeOf items
decreasing_by all_goals simp_wf <;> omega

/-! ### Helper lemmas: the accumulator has distinct keys -/

theorem keys_addScore (s : List (ℕ × ℚ)) (d : ℕ) (c : ℚ) :
    (addScore s d c).map Prod.fst =
      if d ∈ s.map Prod.fst then s.map Prod.fst else s.map Prod.fst ++ [d] := by
  induction s with
  | nil => simp [addScore]
  | cons p rest ih =>
      obtain ⟨k, v⟩ := p
      by_cases hk : k = d
      · subst hk
        simp [addScore]
      · have hk' : ¬ d = k := fun h => hk h.symm
        by_cases hmem : d ∈ rest.map Prod.fst
        · simp [addScore, hk, ih, hmem, hk']
        · simp [addScore, hk, ih, hmem, hk']

theorem nodup_keys_addScore (s : List (ℕ × ℚ)) (d : ℕ) (c : ℚ)
    (h : (s.map Prod.fst).Nodup) : ((addScore s d c).map Prod.fst).Nodup := by
  rw [keys_addScore]
  by_cases hmem : d ∈ s.map Prod.fst
  · simpa [hmem] using h
  · simp only [hmem, ite_false]
    rw [List.nodup_append]
    exact ⟨h, List.nodup_singleton d, by simpa using hmem⟩

theorem nodup_keys_accumEntries (idx : BM25Index) (cands : List ℕ) (idfv : ℚ)
    (entries : List (ℕ × ℕ)) (s : List (ℕ × ℚ))
    (h : (s.map Prod.fst).Nodup) :
    ((accumEntries idx cands idfv entries s).map Prod.fst).Nodup := by
  induction entries generalizing s with
  | nil => simpa [accumEntries] using h
  | cons p rest ih =>
      obtain ⟨d, f⟩ := p
      simp only [accumEntries]
      apply ih
      by_cases hc : d ∈ cands
      · simp only [hc, if_pos]
        exact nodup_keys_addScore s d _ h
      · simpa [hc] using h

theorem nodup_keys_accumScores (idx : BM25Index) (qTokens : List String)
    (cands : List ℕ) :
    ((accumScores idx qTokens cands).map Prod.fst).Nodup := by
  unfold accumScores
  have base : (([] : List (ℕ × ℚ)).map Prod.fst).Nodup := by simp
  generalize ([] : List (ℕ × ℚ)) = s at base ⊢
  induction qTokens generalizing s with
  | nil => simpa using base
  | cons t rest ih =>
      simp only [List.foldl_cons]
      apply ih
      unfold accumTok
      by_cases h : idx.postings t = []
      · simpa [h] using base
      · simp only [h, if_neg, ite_false]
        exact nodup_keys_accumEntries idx cands _ _ s base

theorem getScore_of_mem (s : List (ℕ × ℚ)) (p : ℕ × ℚ)
    (hnd : (s.map Prod.fst).Nodup) (hp : p ∈ s) : getScore s p.1 = p.2 := by
  induction s with
  | nil => simp at hp
  | cons q rest ih =>
      obtain ⟨k, v⟩ := q
      simp only [List.map_cons, List.nodup_cons] at hnd
      obtain ⟨hknotin, hrest⟩ := hnd
      rcases List.mem_cons.mp hp with h | h
      · subst h
        simp [getScore]
      · have hne : k ≠ p.1 := by
          intro hk
          exact hknotin (hk ▸ List.mem_map_of_mem Prod.fst h)
        simp only [getScore, hne, ite_false]
        exact ih hrest h

theorem mem_score_subset_mem_accum (idx : BM25Index) (qTokens : List String)
    (cands : List ℕ) (k : ℕ) (p : ℕ × ℚ)
    (hp : p ∈ score_subset idx qTokens cands k) :
    p ∈ accumScores idx qTokens cands := by
  unfold score_subset at hp
  have h1 : p ∈ sortDesc (accumScores idx qTokens cands) :=
    (List.take_sublist k _).mem hp
  exact (sortDesc_perm _).mem_iff.mp h1

/-! ## Claim theorems -/

/-- Claim C1: for every query, candidate set and index built by
`load_and_prepare`, the accumulated score of a chunk equals the sum over
the query's tokens of the BM25 contribution
`idf[term] * tf * (k1 + 1) / (tf + k1 * (1 - b + b * doc_len / avg_doc_len))`
for each token present in the postings map and contained in the candidate
chunk (`specContrib`), and every `(doc_id, score)` pair returned by
`score_subset` carries exactly that sum. -/
theorem score_subset_accumulates_bm25 (docs : List (List String))
    (idf : String → ℚ) (k1 b : ℚ) (qTokens : List String) (cands : List ℕ)
    (k : ℕ) :
    (∀ d, getScore (accumScores (load_and_prepare docs idf k1 b) qTokens cands) d
        = specScore (load_and_prepare docs idf k1 b) qTokens cands d)
    ∧ (∀ p ∈ score_subset (load_and_prepare docs idf k1 b) qTokens cands k,
        p.2 = specScore (load_and_prepare docs idf k1 b) qTokens cands p.1) := by
  have hdist : ∀ t, ((load_and_prepare docs idf k1 b).postings t).Pairwise
      (fun p q => p.1 ≠ q.1) := by
    intro t
    exact postingsAux_keys_distinct t docs 0
  have hmain : ∀ d,
      getScore (accumScores (load_and_prepare docs idf k1 b) qTokens cands) d
        = specScore (load_and_prepare docs idf k1 b) qTokens cands d := by
    intro d
    unfold accumScores specScore
    rw [getScore_foldl_accumTok _ _ _ _ _ hdist]
    simp [getScore]
  refine ⟨hmain, ?_⟩
  intro p hp
  have hmem := mem_score_subset_mem_accum _ _ _ _ p hp
  have hnd := nodup_keys_accumScores (load_and_prepare docs idf k1 b) qTokens cands
  rw [← getScore_of_mem _ p hnd hmem]
  exact hmain p.1

/-- Witness for C1 at a concrete corpus: the returned score of chunk 0
equals the specification sum. -/
theorem score_subset_accumulates_bm25_witness :
    ((0 : ℕ), (1 : ℚ)) ∈ score_subset
        (load_and_prepare [["a"]] (fun _ => 1) (3/2) (3/4)) ["a"] [0] 3
    ∧ (1 : ℚ) = specScore
        (load_and_prepare [["a"]] (fun _ => 1) (3/2) (3/4)) ["a"] [0] 0 := by
  have hmem : ((0 : ℕ), (1 : ℚ)) ∈ score_subset
      (load_and_prepare [["a"]] (fun _ => 1) (3/2) (3/4)) ["a"] [0] 3 := by
    norm_num [score_subset, sortDesc, insertDesc, accumScores, accumTok,
      accumEntries, addScore, bm25Contrib, load_and_prepare, postingsOf,
      postingsAux, avgdlOf, dlAt]
  exact ⟨hmem,
    (score_subset_accumulates_bm25 [["a"]] (fun _ => 1) (3/2) (3/4) ["a"] [0] 3).2
      ((0 : ℕ), (1 : ℚ)) hmem⟩

/-- Claim C2 fails as stated: on the corpus with two identical one-token
chunks, candidates given in the order `[1, 0]` and equal BM25 scores, the
result lists chunk 0 before chunk 1 (postings insertion order), not the
original candidate order. -/
theorem score_subset_tie_not_candidate_order :
    ¬ List.Pairwise
        (fun a b : ℕ × ℚ =>
          a.2 = b.2 → List.indexOf a.1 [1, 0] < List.indexOf b.1 [1, 0])
        (score_subset (load_and_prepare [["a"], ["a"]] (fun _ => 1) (3/2) (3/4))
          ["a"] [1, 0] 3) := by
  have hss : score_subset (load_and_prepare [["a"], ["a"]] (fun _ => (1:ℚ)) (3/2) (3/4))
      ["a"] [1, 0] 3 = [(0, 1), (1, 1)] := by
    norm_num [score_subset, sortDesc, insertDesc, accumScores, accumTok,
      accumEntries, addScore, bm25Contrib, load_and_prepare, postingsOf,
      postingsAux, avgdlOf, dlAt]
  rw [hss]
  intro h
  rw [List.pairwise_cons] at h
  have hlt := h.1 (1, 1) (by simp) rfl
  have h0 : List.indexOf (0 : ℕ) [1, 0] = 1 := by decide
  have h1 : List.indexOf (1 : ℕ) [1, 0] = 0 := by decide
  rw [h0, h1] at hlt
  omega

/-- Claim C2 (amended): `score_subset` returns at most `top_k` pairs
sorted by non-increasing score; ties are broken by the order in which
chunks first received a score contribution (the `scores` dict insertion
order: ascending chunk index within each query token, tokens in query
order), which the stable sort preserves — not by the original candidate
order. -/
theorem score_subset_ranked_desc_stable (idx : BM25Index)
    (qTokens : List String) (cands : List ℕ) (k : ℕ) :
    (score_subset idx qTokens cands k).length ≤ k
    ∧ (score_subset idx qTokens cands k).Pairwise (fun a b => b.2 ≤ a.2)
    ∧ (∀ a b : ℕ × ℚ, [a, b].Sublist (accumScores idx qTokens cands) →
        b.2 ≤ a.2 → [a, b].Sublist (sortDesc (accumScores idx qTokens cands))) := by
  refine ⟨?_, ?_, ?_⟩
  · unfold score_subset
    simp [List.length_take_le]
  · unfold score_subset
    exact (sortDesc_sorted _).sublist (List.take_sublist k _)
  · intro a b hab hba
    exact sortDesc_stable a b _ hab hba

/-- Witness for C2 (amended) at a concrete corpus: the two equally-scored
chunks keep their accumulation order through the sort. -/
theorem score_subset_ranked_desc_stable_witness :
    [((0 : ℕ), (1 : ℚ)), (1, 1)].Sublist
      (sortDesc (accumScores
        (load_and_prepare [["a"], ["a"]] (fun _ => 1) (3/2) (3/4)) ["a"] [1, 0])) := by
  have hacc : accumScores (load_and_prepare [["a"], ["a"]] (fun _ => (1:ℚ)) (3/2) (3/4))
      ["a"] [1, 0] = [(0, 1), (1, 1)] := by
    norm_num [accumScores, accumTok, accumEntries, addScore, bm25Contrib,
      load_and_prepare, postingsOf, postingsAux, avgdlOf, dlAt]
    tauto
  exact (score_subset_ranked_desc_stable
      (load_and_prepare [["a"], ["a"]] (fun _ => 1) (3/2) (3/4)) ["a"] [1, 0] 3).2.2
    (0, 1) (1, 1) (by rw [hacc]) (le_refl 1)

/-- Claim C3: `score_subset` never divides by zero and never raises — the
average document length is positive whenever some term has postings (so
`dl / avgdl` is a genuine division), every BM25 denominator met during
accumulation is positive, an all-empty corpus (`avgdl = 0`) yields the
empty result for every query, and a query term with no postings entry is
skipped, contributing zero to every candidate. -/
theorem score_subset_safe (docs : List (List String)) (idf : String → ℚ)
    (k1 b : ℚ) (hk : 0 < k1) (hb0 : 0 ≤ b) (hb1 : b ≤ 1) :
    (∀ t, postingsOf docs t ≠ [] → 0 < (load_and_prepare docs idf k1 b).avgdl)
    ∧ (∀ t p, p ∈ postingsOf docs t →
        0 < (p.2 : ℚ) + k1 * (1 - b + b *
          ((dlAt (load_and_prepare docs idf k1 b) p.1 : ℕ) : ℚ) /
            (load_and_prepare docs idf k1 b).avgdl))
    ∧ ((load_and_prepare docs idf k1 b).avgdl = 0 →
        ∀ qTokens cands k,
          score_subset (load_and_prepare docs idf k1 b) qTokens cands k = [])
    ∧ (∀ s t cands, postingsOf docs t = [] →
        accumTok (load_and_prepare docs idf k1 b) cands s t = s) := by
  refine ⟨?_, ?_, ?_, ?_⟩
  · intro t ht
    exact avgdlOf_pos docs t ht
  · intro t p hp
    exact bm25_denom_pos k1 b _ p.2 _ hk hb0 hb1 (avgdlOf_nonneg docs)
      (mem_postingsAux_tf_pos t docs 0 p hp)
  · intro havg qTokens cands k
    apply score_subset_all_empty
    intro t
    exact avgdlOf_eq_zero docs havg t
  · intro s t cands ht
    simp [accumTok, show (load_and_prepare docs idf k1 b).postings t = [] from ht]

/-- Witness for C3: an empty corpus has `avgdl = 0` and every query
returns the empty ranking. -/
theorem score_subset_safe_witness :
    score_subset (load_and_prepare [] (fun _ => (1 : ℚ)) (3/2) (3/4))
      ["a"] [0] 3 = [] :=
  (score_subset_safe [] (fun _ => 1) (3/2) (3/4) (by norm_num) (by norm_num)
    (by norm_num)).2.2.1 (by norm_num [load_and_prepare, avgdlOf]) ["a"] [0] 3

/-- Claim C4 fails as stated: a 1-dimensional embedding `[1 + 5e-6]` has
L2 norm deviating from 1.0 by `5e-6 > 1e-6`, yet `embed` accepts it
unchanged, because `np.allclose(norms, 1.0, atol=1e-6)` also applies
numpy's default relative tolerance `rtol=1e-5`. -/
theorem embed_accepts_deviation_beyond_claimed_tol :
    embed [[1 + 1/200000]] = some [[1 + 1/200000]]
    ∧ ((1/1000000 : ℚ) : ℝ) <
        |Real.sqrt ((sumSq [1 + 1/200000] : ℚ) : ℝ) - 1| := by
  constructor
  · norm_num [embed, normClose, sumSq, allcloseTol]
  · have h1 : sumSq [1 + 1/200000] = ((200001 : ℚ)/200000) ^ 2 := by
      norm_num [sumSq]
    have hsum : ((sumSq [1 + 1/200000] : ℚ) : ℝ) = (200001/200000 : ℝ) ^ 2 := by
      rw [h1]
      push_cast
      norm_num
    rw [hsum, Real.sqrt_sq (by norm_num : (0 : ℝ) ≤ 200001/200000)]
    have habs : (200001/200000 : ℝ) - 1 = 1/200000 := by norm_num
    rw [habs, abs_of_pos (by norm_num : (0:ℝ) < (1/200000 : ℝ))]
    norm_num

/-- Claim C4 (amended): `embed` raises (returns `none`) iff some embedding
has L2 norm deviating from 1.0 by more than the tolerance actually
enforced by `np.allclose(norms, 1.0, atol=1e-6)` — namely
`atol + rtol*|1.0| = 1e-6 + 1e-5 = 1.1e-5`, not `1e-6` — and otherwise
returns the embeddings unchanged.  (NaN/Inf components are not
representable in exact arithmetic; a NaN norm fails `np.allclose` and so
also raises, consistent with this model.) -/
theorem embed_none_iff_allclose_violation (embs : List (List ℚ)) :
    (embed embs = none ↔
      ∃ v ∈ embs, ((allcloseTol : ℚ) : ℝ) < |Real.sqrt ((sumSq v : ℚ) : ℝ) - 1|)
    ∧ (embed embs = some embs ∨ embed embs = none) := by
  constructor
  · unfold embed
    by_cases h : embs.all normClose = true
    · rw [if_pos h]
      constructor
      · intro hc
        exact absurd hc (by simp)
      · rintro ⟨v, hv, hgt⟩
        have hclose : normClose v = true := by
          rw [List.all_eq_true] at h
          exact h v hv
        have := (normClose_iff v).mp hclose
        exact absurd hgt (not_lt.mpr this)
    · have hex : ∃ v ∈ embs, normClose v = false := by
        rw [List.all_eq_true] at h
        push_neg at h
        obtain ⟨v, hv, hpv⟩ := h
        exact ⟨v, hv, by simpa using hpv⟩
      rw [if_neg h]
      simp only [eq_self_iff_true, true_iff]
      obtain ⟨v, hv, hfalse⟩ := hex
      refine ⟨v, hv, ?_⟩
      by_contra hle
      have : normClose v = true := (normClose_iff v).mpr (not_lt.mp hle)
      rw [this] at hfalse
      exact Bool.true_eq_false.mp hfalse
  · unfold embed
    by_cases h : embs.all normClose = true
    · left; simp [h]
    · right; simp [h]

/-- Claim C5 fails as stated: a chunk consisting only of a heading line
is cleaned to the empty string, and a blank line between a heading and a
literal "Section:" content line lets the trimmed result start with
"Section:". -/
theorem hybrid_run_dirty_outputs :
    (¬ (∀ s ∈ hybrid_run ["Section: X."]
          (load_and_prepare [["section", "x"]] (fun _ => 1) (3/2) (3/4))
          ["section"] [0] 3, s ≠ ""))
    ∧ (¬ (∀ s ∈ hybrid_run ["Section: A.\n\nSection: B."]
          (load_and_prepare [["x"]] (fun _ => 1) (3/2) (3/4))
          ["x"] [0] 3, strStarts s "Section:" = false)) := by
  constructor
  · intro h
    have hrun : hybrid_run ["Section: X."]
        (load_and_prepare [["section", "x"]] (fun _ => (1:ℚ)) (3/2) (3/4))
        ["section"] [0] 3 = [""] := by
      norm_num [hybrid_run, runClean, score_subset, sortDesc, insertDesc,
        accumScores, accumTok, accumEntries, addScore, bm25Contrib,
        load_and_prepare, postingsOf, postingsAux, avgdlOf, dlAt, cleanChunk,
        splitLines, splitLinesAux, joinWithNL, strTrim, strStarts, strStartsAux]
    exact h "" (by rw [hrun]; simp) rfl
  · intro h
    have hrun : hybrid_run ["Section: A.\n\nSection: B."]
        (load_and_prepare [["x"]] (fun _ => (1:ℚ)) (3/2) (3/4))
        ["x"] [0] 3 = ["Section: B."] := by
      norm_num [hybrid_run, runClean, score_subset, sortDesc, insertDesc,
        accumScores, accumTok, accumEntries, addScore, bm25Contrib,
        load_and_prepare, postingsOf, postingsAux, avgdlOf, dlAt, cleanChunk,
        splitLines, splitLinesAux, joinWithNL, strTrim, strStarts, strStartsAux]
      decide
    have := h "Section: B." (by rw [hrun]; simp)
    rw [show strStarts "Section: B." "Section:" = true from by decide] at this
    exact Bool.true_eq_false.mp this

/-- Claim C5 (amended): the hybrid retrieval returns at most
`top_k_final` strings; each one is its hit's raw chunk with every leading
line starting with "Section:" removed and the remainder
whitespace-trimmed (in particular the first surviving pre-trim line never
starts with "Section:"), but the result can be empty (a chunk that is
only heading lines) and, after trimming past a blank line, can still
begin with a literal "Section:" content line. -/
theorem hybrid_run_shape (raw : List String) (idx : BM25Index)
    (qTokens : List String) (cands : List ℕ) (k : ℕ) :
    (hybrid_run raw idx qTokens cands k).length ≤ k
    ∧ (∀ s ∈ hybrid_run raw idx qTokens cands k,
        ∃ p ∈ score_subset idx qTokens cands k, s = cleanChunk (raw.getD p.1 ""))
    ∧ (∀ chunk, (splitLines chunk).dropWhile (fun l => strStarts l "Section:") = []
        ∨ ∃ x rest, (splitLines chunk).dropWhile (fun l => strStarts l "Section:")
            = x :: rest ∧ strStarts x "Section:" = false) := by
  refine ⟨?_, ?_, ?_⟩
  · unfold hybrid_run runClean score_subset
    simp [List.length_take_le]
  · intro s hs
    unfold hybrid_run runClean at hs
    obtain ⟨p, hp, hs'⟩ := List.mem_map.mp hs
    exact ⟨p, hp, hs'.symm⟩
  · intro chunk
    exact dropWhile_head_not _ _

/-- Witness for C5 (amended) at a concrete corpus: the single returned
string is the cleaning of the hit's raw chunk. -/
theorem hybrid_run_shape_witness :
    ∃ p ∈ score_subset (load_and_prepare [["hello"]] (fun _ => (1:ℚ)) (3/2) (3/4))
        ["hello"] [0] 3, "hello" = cleanChunk (["hello"].getD p.1 "") := by
  have hrun : hybrid_run ["hello"]
      (load_and_prepare [["hello"]] (fun _ => (1:ℚ)) (3/2) (3/4))
      ["hello"] [0] 3 = ["hello"] := by
    norm_num [hybrid_run, runClean, score_subset, sortDesc, insertDesc,
      accumScores, accumTok, accumEntries, addScore, bm25Contrib,
      load_and_prepare, postingsOf, postingsAux, avgdlOf, dlAt, cleanChunk,
      splitLines, splitLinesAux, joinWithNL, strTrim, strStarts, strStartsAux]
    decide
  exact (hybrid_run_shape ["hello"]
      (load_and_prepare [["hello"]] (fun _ => (1:ℚ)) (3/2) (3/4))
      ["hello"] [0] 3).2.1 "hello" (by rw [hrun]; simp)

/-- Claim C6: on an empty corpus the BM25 `score_subset` does return `[]`
for every query, but the semantic `query` does not return an empty list:
FAISS pads missing results with label `-1`, and `self.ids[idx]` with
`idx = -1` on the empty `ids` list is an out-of-range access
(`IndexError`), modelled by `pyGet` returning `none`. -/
theorem empty_corpus_behaviour :
    (∀ (idf : String → ℚ) (k1 b : ℚ) qTokens cands k,
        score_subset (load_and_prepare [] idf k1 b) qTokens cands k = [])
    ∧ queryLookupIds [] (List.replicate 5 (-1 : ℤ)) = none := by
  constructor
  · intro idf k1 b qTokens cands k
    apply score_subset_all_empty
    intro t
    rfl
  · decide

/-- Claim C7: a semantic candidate index with no lexical counterpart
(here index 1 against a one-chunk BM25 corpus) is silently dropped by
`score_subset` — it matches no postings entry, receives no score, and the
ranking is returned without any error or warning. -/
theorem unmapped_candidate_silently_dropped :
    score_subset (load_and_prepare [["a"]] (fun _ => (1 : ℚ)) (3/2) (3/4))
      ["a"] [1] 3 = [] := by
  norm_num [score_subset, sortDesc, insertDesc, accumScores, accumTok,
    accumEntries, addScore, bm25Contrib, load_and_prepare, postingsOf,
    postingsAux, avgdlOf, dlAt]

/-- Claim C8: for fixed document length, a fixed (non-negative, as every
idf stored by this program is) idf weight, and constants `k1 > 0`,
`0 ≤ b ≤ 1`, the per-term BM25 contribution is monotonically
non-decreasing in the term frequency over positive integers. -/
theorem bm25Contrib_monotone_in_tf (k1 b idfv avgdl : ℚ) (dl : ℕ)
    (f1 f2 : ℕ) (hk : 0 < k1) (hb0 : 0 ≤ b) (hb1 : b ≤ 1) (hidf : 0 ≤ idfv)
    (havg : 0 ≤ avgdl) (hf1 : 1 ≤ f1) (h12 : f1 ≤ f2) :
    bm25Contrib k1 b idfv f1 dl avgdl ≤ bm25Contrib k1 b idfv f2 dl avgdl := by
  unfold bm25Contrib
  have hdiv : 0 ≤ b * (dl : ℚ) / avgdl :=
    div_nonneg (mul_nonneg hb0 (Nat.cast_nonneg dl)) havg
  have hD0 : 0 ≤ k1 * (1 - b + b * (dl : ℚ) / avgdl) :=
    mul_nonneg (le_of_lt hk) (by linarith)
  have hf1' : (1 : ℚ) ≤ (f1 : ℚ) := by exact_mod_cast hf1
  have h12' : (f1 : ℚ) ≤ (f2 : ℚ) := by exact_mod_cast h12
  have hden1 : 0 < (f1 : ℚ) + k1 * (1 - b + b * (dl : ℚ) / avgdl) := by linarith
  have hden2 : 0 < (f2 : ℚ) + k1 * (1 - b + b * (dl : ℚ) / avgdl) := by linarith
  rw [div_le_div_iff₀ hden1 hden2]
  have key : 0 ≤ idfv * (k1 + 1) * (k1 * (1 - b + b * (dl : ℚ) / avgdl))
      * ((f2 : ℚ) - (f1 : ℚ)) := by
    apply mul_nonneg
    · apply mul_nonneg
      · exact mul_nonneg hidf (by linarith)
      · exact hD0
    · linarith
  nlinarith [key]

/-- Witness for C8: at the default constants, the contribution at
`tf = 1` is at most the contribution at `tf = 2`. -/
theorem bm25Contrib_monotone_in_tf_witness :
    bm25Contrib (3/2) (3/4) 1 1 1 1 ≤ bm25Contrib (3/2) (3/4) 1 2 1 1 :=
  bm25Contrib_monotone_in_tf (3/2) (3/4) 1 1 1 1 2 (by norm_num) (by norm_num)
    (by norm_num) (by norm_num) (by norm_num) (by norm_num) (by norm_num)

/-- Claim C9 fails as stated: a list item with blank text does add a line
to the flattened output — an empty line at depth 0 (BM25 flattener shown)
and an indented marker line at depth 1 (semantic flattener shown). -/
theorem process_list_blank_item_adds_line :
    (BM25Preprocessor.process_list [Item.mk "" []] 0 ["Section: A."]
        = ["Section: A.", ""]
      ∧ ["Section: A.", ""] ≠ ["Section: A."])
    ∧ (LegalKnowledgeIndexer.process_list [Item.mk " " []] 1 []
        = ["        - "]
      ∧ ("        - " : String) ≠ "") := by
  refine ⟨⟨?_, by decide⟩, ⟨?_, by decide⟩⟩
  · simp [BM25Preprocessor.process_list, strTrim]
  · simp [LegalKnowledgeIndexer.process_list, strTrim, lstripBulletSpace, mkIndent]

/-- Claim C9 (amended): in both flatteners a content block whose text is
blank contributes no line of its own (only its nested list does), but
every list item appends exactly one line regardless of blankness — an
empty line at depth 0, an indented marker line at depth ≥ 1 — at every
nesting depth. -/
theorem blank_blocks_vs_list_items :
    (∀ (lines : List String) (blk : Block), strTrim blk.text = "" →
        BM25Preprocessor.contentStep lines blk
          = BM25Preprocessor.process_list blk.list 0 lines)
    ∧ (∀ (lines : List String) (blk : Block), strTrim blk.text = "" →
        LegalKnowledgeIndexer.contentStep lines blk
          = LegalKnowledgeIndexer.process_list blk.list 0 lines)
    ∧ (∀ items depth lines,
        (BM25Preprocessor.process_list items depth lines).length
          = lines.length + itemCount items)
    ∧ (∀ items depth lines,
        (LegalKnowledgeIndexer.process_list items depth lines).length
          = lines.length + itemCount items) := by
  refine ⟨?_, ?_, bm25_process_list_length, sem_process_list_length⟩
  · intro lines blk h
    simp [BM25Preprocessor.contentStep, h]
  · intro lines blk h
    simp [LegalKnowledgeIndexer.contentStep, h]

/-- Witness for C9 (amended): a block with whitespace-only text and no
list leaves the line accumulator unchanged. -/
theorem blank_blocks_vs_list_items_witness :
    BM25Preprocessor.contentStep ["x"] (Block.mk " " [])
      = BM25Preprocessor.process_list [] 0 ["x"] :=
  blank_blocks_vs_list_items.1 ["x"] (Block.mk " " []) (by decide)

/-- Claim C10: every idf value computed by `load_and_prepare` is strictly
positive — the argument of the logarithm exceeds 1 because `df ≤ N` (and
`df ≥ 1` for any term with postings) — and consequently, for any idf
assignment positive on the postings vocabulary, every `(doc_id, score)`
pair returned by `score_subset` carries a strictly positive score. -/
theorem idf_positive_and_scores_positive :
    (∀ (docs : List (List String)) (t : String), postingsOf docs t ≠ [] →
        0 < Real.log ((idfArg docs.length (dfOf docs t) : ℚ) : ℝ))
    ∧ (∀ (docs : List (List String)) (idf : String → ℚ) (k1 b : ℚ)
        (qTokens : List String) (cands : List ℕ) (k : ℕ),
        0 < k1 → 0 ≤ b → b ≤ 1 →
        (∀ t, postingsOf docs t ≠ [] → 0 < idf t) →
        ∀ p ∈ score_subset (load_and_prepare docs idf k1 b) qTokens cands k,
          0 < p.2) := by
  constructor
  · intro docs t ht
    apply Real.log_pos
    have harg : 1 < idfArg docs.length (dfOf docs t) :=
      idfArg_gt_one _ _ (length_postingsAux_le t docs 0)
    exact_mod_cast harg
  · intro docs idf k1 b qTokens cands k hk hb0 hb1 hidf p hp
    exact mem_accumScores_pos docs idf k1 b qTokens cands hk hb0 hb1 hidf p
      (mem_score_subset_mem_accum _ _ _ _ p hp)

/-- Witness for C10 at a one-chunk corpus: the idf logarithm is positive
and the returned score of the sole hit is positive. -/
theorem idf_positive_and_scores_positive_witness :
    0 < Real.log ((idfArg ([["a"]] : List (List String)).length
        (dfOf [["a"]] "a") : ℚ) : ℝ)
    ∧ (0 : ℚ) < ((0 : ℕ), (1 : ℚ)).2 := by
  have hmem : ((0 : ℕ), (1 : ℚ)) ∈ score_subset
      (load_and_prepare [["a"]] (fun _ => 1) (3/2) (3/4)) ["a"] [0] 3 := by
    norm_num [score_subset, sortDesc, insertDesc, accumScores, accumTok,
      accumEntries, addScore, bm25Contrib, load_and_prepare, postingsOf,
      postingsAux, avgdlOf, dlAt]
  exact ⟨idf_positive_and_scores_positive.1 [["a"]] "a" (by decide),
    idf_positive_and_scores_positive.2 [["a"]] (fun _ => 1) (3/2) (3/4)
      ["a"] [0] 3 (by norm_num) (by norm_num) (by norm_num)
      (fun t _ => by norm_num) ((0 : ℕ), (1 : ℚ)) hmem⟩
